import Mathlib

/-!
Shallow embedding of the stock-dashboard extraction/normalization engine
(frontend data pipeline): JSON-like payload values, the raw-text fallback
extractor, the aggregation-path stock extractor, the chart-ranking
derivations, the followed-links table extractor, and the per-site
canonicalization pipeline.  Definitions are translated from the source
JavaScript; machine numbers are modelled as rationals.
-/

/- The Batteries rational-number operations are irreducible by default,
which blocks evaluation of concrete model runs inside rfl and decide
proofs; restore the ordinary unfolding behaviour for them. -/
attribute [local semireducible] Rat.mul Rat.add Rat.sub Rat.inv

namespace StockMarket

/-- A JSON-like runtime value, as produced by JSON decoding of crawl
records.  Objects are ordered association lists (JSON objects have
unique keys; insertion order is preserved as in JS). -/
inductive JVal where
  | null : JVal
  | bool : Bool → JVal
  | num : ℚ → JVal
  | str : String → JVal
  | arr : List JVal → JVal
  | obj : List (String × JVal) → JVal
  deriving Repr, Inhabited

mutual

/-- Structural boolean equality on values. -/
def JVal.beq : JVal → JVal → Bool
  | .null, .null => true
  | .bool a, .bool b => a == b
  | .num a, .num b => a == b
  | .str a, .str b => a == b
  | .arr xs, .arr ys => JVal.beqList xs ys
  | .obj fs, .obj gs => JVal.beqFields fs gs
  | _, _ => false

def JVal.beqList : List JVal → List JVal → Bool
  | [], [] => true
  | x :: xs, y :: ys => JVal.beq x y && JVal.beqList xs ys
  | _, _ => false

def JVal.beqFields : List (String × JVal) → List (String × JVal) → Bool
  | [], [] => true
  | (k, x) :: xs, (l, y) :: ys => k == l && JVal.beq x y && JVal.beqFields xs ys
  | _, _ => false

end

/- Correctness of JVal.beq, giving the decidable equality instance that
deriving cannot produce for this nested inductive.  This block is
infrastructure for the data type, the manual counterpart of a deriving
clause. -/

mutual

theorem JVal.beq_iff : ∀ a b : JVal, JVal.beq a b = true ↔ a = b
  | .null, .null => by simp [JVal.beq]
  | .null, .bool _ => by simp [JVal.beq]
  | .null, .num _ => by simp [JVal.beq]
  | .null, .str _ => by simp [JVal.beq]
  | .null, .arr _ => by simp [JVal.beq]
  | .null, .obj _ => by simp [JVal.beq]
  | .bool _, .null => by simp [JVal.beq]
  | .bool _, .bool _ => by simp [JVal.beq]
  | .bool _, .num _ => by simp [JVal.beq]
  | .bool _, .str _ => by simp [JVal.beq]
  | .bool _, .arr _ => by simp [JVal.beq]
  | .bool _, .obj _ => by simp [JVal.beq]
  | .num _, .null => by simp [JVal.beq]
  | .num _, .bool _ => by simp [JVal.beq]
  | .num _, .num _ => by simp [JVal.beq]
  | .num _, .str _ => by simp [JVal.beq]
  | .num _, .arr _ => by simp [JVal.beq]
  | .num _, .obj _ => by simp [JVal.beq]
  | .str _, .null => by simp [JVal.beq]
  | .str _, .bool _ => by simp [JVal.beq]
  | .str _, .num _ => by simp [JVal.beq]
  | .str _, .str _ => by simp [JVal.beq]
  | .str _, .arr _ => by simp [JVal.beq]
  | .str _, .obj _ => by simp [JVal.beq]
  | .arr _, .null => by simp [JVal.beq]
  | .arr _, .bool _ => by simp [JVal.beq]
  | .arr _, .num _ => by simp [JVal.beq]
  | .arr _, .str _ => by simp [JVal.beq]
  | .arr xs, .arr ys => by
      simp only [JVal.beq, JVal.arr.injEq]
      exact JVal.beqList_iff xs ys
  | .arr _, .obj _ => by simp [JVal.beq]
  | .obj _, .null => by simp [JVal.beq]
  | .obj _, .bool _ => by simp [JVal.beq]
  | .obj _, .num _ => by simp [JVal.beq]
  | .obj _, .str _ => by simp [JVal.beq]
  | .obj _, .arr _ => by simp [JVal.beq]
  | .obj fs, .obj gs => by
      simp only [JVal.beq, JVal.obj.injEq]
      exact JVal.beqFields_iff fs gs

theorem JVal.beqList_iff : ∀ xs ys : List JVal, JVal.beqList xs ys = true ↔ xs = ys
  | [], [] => by simp [JVal.beqList]
  | [], _ :: _ => by simp [JVal.beqList]
  | _ :: _, [] => by simp [JVal.beqList]
  | x :: xs, y :: ys => by
      simp only [JVal.beqList, Bool.and_eq_true, List.cons.injEq]
      exact and_congr (JVal.beq_iff x y) (JVal.beqList_iff xs ys)

theorem JVal.beqFields_iff :
    ∀ fs gs : List (String × JVal), JVal.beqFields fs gs = true ↔ fs = gs
  | [], [] => by simp [JVal.beqFields]
  | [], _ :: _ => by simp [JVal.beqFields]
  | _ :: _, [] => by simp [JVal.beqFields]
  | (k, x) :: fs, (l, y) :: gs => by
      simp only [JVal.beqFields, Bool.and_eq_true, List.cons.injEq, beq_iff_eq,
        Prod.mk.injEq]
      constructor
      · rintro ⟨⟨h1, h2⟩, h3⟩
        exact ⟨⟨h1, (JVal.beq_iff x y).mp h2⟩, (JVal.beqFields_iff fs gs).mp h3⟩
      · rintro ⟨⟨h1, h2⟩, h3⟩
        exact ⟨⟨h1, (JVal.beq_iff x y).mpr h2⟩, (JVal.beqFields_iff fs gs).mpr h3⟩

end

instance : DecidableEq JVal := fun a b =>
  decidable_of_iff (JVal.beq a b = true) (JVal.beq_iff a b)

namespace JVal

/-- JS truthiness of a value (undefined is represented separately via
Option).  NaN does not arise because numbers are rationals. -/
def truthy : JVal → Bool
  | null => false
  | bool b => b
  | num q => !(q == 0)
  | str s => !(s == "")
  | arr _ => true
  | obj _ => true

/-- Property read obj.k in JS, returning none for undefined.  Non-object
values have no named data properties that this pipeline reads. -/
def getF : JVal → String → Option JVal
  | obj fs, k => fs.lookup k
  | _, _ => none

/-- Whether typeof v === 'object' (arrays and null included). -/
def isObjType : JVal → Bool
  | null => true
  | arr _ => true
  | obj _ => true
  | _ => false

/-- Object.keys for the values this pipeline feeds to it: own enumerable
keys of objects and index keys of arrays and strings, else empty. -/
def jsKeys : JVal → List String
  | obj fs => fs.map Prod.fst
  | arr xs => (List.range xs.length).map toString
  | str s => (List.range s.length).map toString
  | _ => []

/-- Object.keys together with the corresponding values, mirroring the
source's Object.keys(o).forEach(k => o[k]) iteration. -/
def jsEntries : JVal → List (String × JVal)
  | obj fs => fs
  | arr xs => xs.enum.map (fun p => (toString p.1, p.2))
  | str s => s.toList.enum.map (fun p => (toString p.1, JVal.str (String.singleton p.2)))
  | _ => []

/-- The JS expression (x || d) for a possibly-undefined x. -/
def jsOr (x : Option JVal) (d : JVal) : JVal :=
  match x with
  | some v => if v.truthy then v else d
  | none => d

/-- Field write o.k = v.  The pipeline only performs this on objects
(non-objects are first replaced by a fresh empty object). -/
def setF : JVal → String → JVal → JVal
  | obj fs, k, v =>
      if (fs.lookup k).isSome then
        obj (fs.map (fun p => if p.1 = k then (k, v) else p))
      else obj (fs ++ [(k, v)])
  | x, _, _ => x

/-- Spread [...(x)] of an iterable: arrays spread to their elements and
strings to their characters.  The pipeline only spreads values obtained
from (field || []), so other truthy non-iterables (which would throw in
JS) do not occur on the inputs considered here. -/
def spreadList : JVal → List JVal
  | arr xs => xs
  | str s => s.toList.map (fun c => JVal.str (String.singleton c))
  | _ => []

/-- The JS test (v.length === 0) used on the display fields: true for an
empty array or empty string; for other values .length is undefined and
undefined === 0 is false. -/
def lenEq0 : JVal → Bool
  | arr xs => xs.isEmpty
  | str s => s == ""
  | _ => false

end JVal

/-- JS whitespace characters skipped by parseFloat (the common ones;
exotic Unicode space separators behave the same way). -/
def jsWhitespace (c : Char) : Bool :=
  c = ' ' ∨ c = '\t' ∨ c = '\n' ∨ c = '\r' ∨ c = '\x0b' ∨ c = '\x0c' ∨
  c = ' ' ∨ c = '　'

/-- Numeric value of a digit string. -/
def digitsToNat (cs : List Char) : Nat :=
  cs.foldl (fun a c => 10 * a + (c.toNat - 48)) 0

/-- parseFloat on character lists: skip leading whitespace, optional
sign, digits with an optional fractional part (at least one digit in
total), and an optional exponent; the longest valid numeric literal
at the start of the text is taken, anything after it is ignored; if no
valid literal starts the text the result is NaN (none).  The Infinity
literal is not modelled (no crawl payload uses it). -/
def parseFloatCore (cs0 : List Char) : Option ℚ :=
  let cs := cs0.dropWhile jsWhitespace
  let sgn : ℚ := match cs with
    | '-' :: _ => -1
    | _ => 1
  let cs := match cs with
    | '+' :: r => r
    | '-' :: r => r
    | _ => cs
  let d1 := cs.takeWhile Char.isDigit
  let cs1 := cs.dropWhile Char.isDigit
  let (d2, cs2) := match cs1 with
    | '.' :: r => (r.takeWhile Char.isDigit, r.dropWhile Char.isDigit)
    | _ => ([], cs1)
  if d1.isEmpty && d2.isEmpty then none
  else
    let mant : ℚ := (digitsToNat d1 : ℚ) + (digitsToNat d2 : ℚ) / ((10 : ℚ) ^ d2.length)
    let expv : ℤ :=
      match cs2 with
      | e :: r =>
          if e = 'e' ∨ e = 'E' then
            let es : ℤ := match r with
              | '-' :: _ => -1
              | _ => 1
            let r2 := match r with
              | '+' :: t => t
              | '-' :: t => t
              | _ => r
            let ed := r2.takeWhile Char.isDigit
            if ed.isEmpty then 0 else es * (digitsToNat ed : ℤ)
          else 0
      | [] => 0
    some (sgn * mant * (10 : ℚ) ^ expv)

/-- parseFloat on strings. -/
def parseFloatStr (s : String) : Option ℚ :=
  parseFloatCore s.toList

/-- Exact decimal rendering of a rational whose denominator divides a
power of ten — the case for every finite JS float — used to model
number-to-string conversion.  (JS additionally switches to exponent
notation for very large or very small magnitudes; the strings this
pipeline converts are ordinary prices and percentages, where the plain
decimal form agrees.) -/
def qToDecimalString (q : ℚ) : String :=
  let sgn := if q < 0 then "-" else ""
  let a := |q|
  let ip := a.floor.toNat
  let frac := a - a.floor
  match (List.range 1101).find? (fun k => (frac * (10 : ℚ) ^ k).den == 1) with
  | some 0 => sgn ++ toString ip
  | some k =>
      let ds := toString (frac * (10 : ℚ) ^ k).num.toNat
      sgn ++ toString ip ++ "." ++
        String.mk (List.replicate (k - ds.length) '0') ++ ds
  | none => sgn ++ toString ip

mutual

/-- JS String(v) coercion for the values the pipeline stringifies. -/
def jsToString : JVal → String
  | .null => "null"
  | .bool true => "true"
  | .bool false => "false"
  | .num q => qToDecimalString q
  | .str s => s
  | .arr xs => jsToStringJoin xs
  | .obj _ => "[object Object]"

/-- Array toString: elements joined with commas, null elements empty. -/
def jsToStringJoin : List JVal → String
  | [] => ""
  | [.null] => ""
  | [x] => jsToString x
  | .null :: y :: xs => "," ++ jsToStringJoin (y :: xs)
  | x :: y :: xs => jsToString x ++ "," ++ jsToStringJoin (y :: xs)

end

/-- parseFloat applied to an arbitrary value: JS converts the argument
to a string first; for a finite number that conversion round-trips, so
numbers map to themselves directly. -/
def jsParseFloat : JVal → Option ℚ
  | .num q => some q
  | v => parseFloatStr (jsToString v)

/-- String.replace with a plain-string pattern replaces only the first
occurrence: model of String(x).replace with a percent sign pattern and
empty replacement. -/
def stripFirstPercent (s : String) : String :=
  match s.toList.span (fun c => c ≠ '%') with
  | (_, []) => s
  | (a, _ :: b) => String.mk (a ++ b)

/-! ### Pattern recognizers

The extraction regexes of the source, hand-compiled to character-list
matchers.  Every sub-pattern boundary in these regexes joins disjoint
character classes, and everything after each greedy repetition is
optional or has a uniquely determined continuation, so maximal munch
computes exactly the JS backtracking result (noted per combinator). -/

/-- CJK unified ideograph range used by the name classes. -/
def isCJK (c : Char) : Bool :=
  0x4e00 ≤ c.toNat && c.toNat ≤ 0x9fa5

/-- The class CJK plus ASCII alphanumerics used for name tokens. -/
def isNameCh (c : Char) : Bool :=
  isCJK c || c.isAlphanum

/-- The separator class of colon, whitespace and comma. -/
def isSepCh (c : Char) : Bool :=
  c = ':' || c = ',' || jsWhitespace c

/-- The separator class of colon and whitespace only. -/
def isSep2Ch (c : Char) : Bool :=
  c = ':' || jsWhitespace c

/-- The class of whitespace and an opening parenthesis. -/
def isWsParenCh (c : Char) : Bool :=
  c = '(' || jsWhitespace c

/-- The regex word class of ASCII alphanumerics and underscore. -/
def isWordCh (c : Char) : Bool :=
  c.isAlphanum || c = '_'

/-- Unsigned decimal token: one or more digits, an optional dot, then
optional digits (greedy).  Nothing after it can fail in the patterns
using it, so maximal munch is exact. -/
def numTok (cs : List Char) : Option (List Char × List Char) :=
  let d1 := cs.takeWhile Char.isDigit
  if d1.isEmpty then none
  else
    let r := cs.dropWhile Char.isDigit
    match r with
    | '.' :: r2 => some (d1 ++ '.' :: r2.takeWhile Char.isDigit, r2.dropWhile Char.isDigit)
    | _ => some (d1, r)

/-- Optionally signed decimal token. -/
def signedNumTok (cs : List Char) : Option (List Char × List Char) :=
  match cs with
  | c :: r =>
      if c = '+' ∨ c = '-' then (numTok r).map (fun p => (c :: p.1, p.2))
      else numTok cs
  | [] => none

/-- Signed decimal token with a required trailing percent sign: giving
back digits from the greedy repetitions always exposes a digit or a dot,
never the percent sign, so checking it after maximal munch is exact. -/
def signedPctTok (cs : List Char) : Option (List Char × List Char) :=
  match signedNumTok cs with
  | some (t, '%' :: rest) => some (t ++ ['%'], rest)
  | _ => none

/-- One attempted match of the stock pattern at the current position:
six digits, separators, a name token, separators, a price, then
optional separators, signed change and signed percentage.  Returns the
groups and the consumed length. -/
structure StockMatch where
  code : String
  name : String
  price : String
  chg : Option String
  chgPct : Option String
  deriving Repr, DecidableEq

def matchStockAt (cs : List Char) : Option (StockMatch × Nat) :=
  let g1 := cs.take 6
  if g1.length = 6 ∧ g1.all Char.isDigit then
    let r1 := cs.drop 6
    if (r1.takeWhile isSepCh).isEmpty then none
    else
      let r2 := r1.dropWhile isSepCh
      let g2 := r2.takeWhile isNameCh
      if g2.isEmpty then none
      else
        let r3 := r2.dropWhile isNameCh
        if (r3.takeWhile isSepCh).isEmpty then none
        else
          let r4 := r3.dropWhile isSepCh
          match numTok r4 with
          | none => none
          | some (g3, r5) =>
              let r6 := r5.dropWhile isSepCh
              let (g4, r7) := match signedNumTok r6 with
                | some (t, rest) => (some t, rest)
                | none => (none, r6)
              let r8 := r7.dropWhile isSepCh
              let (g5, r9) := match signedPctTok r8 with
                | some (t, rest) => (some t, rest)
                | none => (none, r8)
              some ({ code := String.mk g1, name := String.mk g2,
                      price := String.mk g3, chg := g4.map String.mk,
                      chgPct := g5.map String.mk }, cs.length - r9.length)
  else none

/-- Generic matchAll driver: scan left to right, at each position try
the matcher; on success record the match and continue after it, else
advance one character.  All matchers used consume at least one
character, so fuel equal to the text length is always sufficient. -/
def scanAllGo {α : Type} (f : List Char → Option (α × Nat)) :
    Nat → List Char → List α
  | 0, _ => []
  | _ + 1, [] => []
  | fuel + 1, c :: rest =>
      match f (c :: rest) with
      | some (a, n) => a :: scanAllGo f fuel ((c :: rest).drop (max n 1))
      | none => scanAllGo f fuel rest

def scanAll {α : Type} (f : List Char → Option (α × Nat)) (cs : List Char) : List α :=
  scanAllGo f cs.length cs

/-- First match of a pattern anywhere in the text (leftmost). -/
def findFirstMatch {α : Type} (f : List Char → Option (α × Nat)) :
    List Char → Option α
  | [] => (f []).map Prod.fst
  | c :: rest =>
      match f (c :: rest) with
      | some (a, _) => some a
      | none => findFirstMatch f rest

/-- Does the literal keyword start the text? -/
def litHere (kw : String) (cs : List Char) : Bool :=
  cs.take kw.toList.length = kw.toList

/-- First keyword of a list matching at this position, with remainder. -/
def firstLitHere (kws : List String) (cs : List Char) : Option (String × List Char) :=
  match kws with
  | [] => none
  | k :: ks =>
      if litHere k cs then some (k, cs.drop k.toList.length)
      else firstLitHere ks cs

/-- The eight recognized index names, in the source's alternation order. -/
def indexNames8 : List String :=
  ["上证指数", "深证成指", "创业板指", "沪深300", "中证500", "上证50", "科创50", "北证50"]

/-- One attempted match of the index pattern: an index name, colon or
whitespace separators, a decimal value, optional whitespace or opening
parenthesis, and an optional signed percentage. -/
def matchIndexAt (cs : List Char) : Option ((String × String × Option String) × Nat) :=
  match firstLitHere indexNames8 cs with
  | none => none
  | some (nm, r1) =>
      if (r1.takeWhile isSep2Ch).isEmpty then none
      else
        let r2 := r1.dropWhile isSep2Ch
        match numTok r2 with
        | none => none
        | some (v, r3) =>
            let r4 := r3.dropWhile isWsParenCh
            let (p, r5) := match signedPctTok r4 with
              | some (t, rest) => (some (String.mk t), rest)
              | none => (none, r4)
            some ((nm, String.mk v, p), cs.length - r5.length)

/-- One attempted match of the gainer/loser pattern: a name token,
colon or whitespace separators, then a required signed percentage.  If
the percentage fails after maximal munch, shrinking the name or the
separators always exposes a character of the wrong class, so the whole
position fails, exactly as in JS. -/
def matchGainerAt (cs : List Char) : Option ((String × String) × Nat) :=
  let g1 := cs.takeWhile isNameCh
  if g1.isEmpty then none
  else
    let r1 := cs.dropWhile isNameCh
    if (r1.takeWhile isSep2Ch).isEmpty then none
    else
      let r2 := r1.dropWhile isSep2Ch
      match signedPctTok r2 with
      | some (t, rest) =>
          some ((String.mk g1, String.mk t), cs.length - rest.length)
      | none => none

/-- One attempted match of a market-overview sentence: a keyword, then
between lo and hi non-fullstop characters, then the fullstop.  The
greedy bounded repetition succeeds at this position exactly when the
maximal fullstop-free run after the keyword has length within bounds
and is terminated by a fullstop. -/
def matchOverviewAt (kws : List String) (lo hi : Nat) (cs : List Char) :
    Option (String × Nat) :=
  match firstLitHere kws cs with
  | none => none
  | some (kw, r1) =>
      let run := r1.takeWhile (fun c => c ≠ '。')
      let r2 := r1.dropWhile (fun c => c ≠ '。')
      if lo ≤ run.length ∧ run.length ≤ hi then
        match r2 with
        | '。' :: rest =>
            some (kw ++ String.mk run ++ "。", cs.length - rest.length)
        | _ => none
      else none

/-- The JS expression (x || d) on optional strings. -/
def optOr (o : Option String) (d : String) : String :=
  match o with
  | some t => if t = "" then d else t
  | none => d

/-- transformRawData: regex-based fallback extraction of stocks,
indices, gainer and loser mentions and an overview sentence from raw
text; null for a non-string or empty argument and when nothing at all
was extracted.  (The unused second siteData parameter of the source is
dropped; the try/catch never fires in this pure model.) -/
def transformRawData (v : JVal) : Option JVal :=
  match v with
  | .str s =>
      if s = "" then none
      else
        let cs := s.toList
        let stocks := (scanAll matchStockAt cs).filterMap (fun m =>
          if m.code ≠ "" ∧ m.price ≠ "" then
            some (JVal.obj
              [("symbol", .str m.code),
               ("name", .str (optOr (some m.name) "N/A")),
               ("price", .str (optOr (some m.price) "N/A")),
               ("change", .str (optOr m.chg "N/A")),
               ("change_percent", .str (optOr m.chgPct "N/A")),
               ("volume", .str "N/A")])
          else none)
        let indices := (scanAll matchIndexAt cs).map (fun m =>
          JVal.obj
            [("name", .str m.1),
             ("value", .str (optOr (some m.2.1) "N/A")),
             ("change", .str "N/A"),
             ("change_percent", .str (optOr m.2.2 "N/A"))])
        let gl := scanAll matchGainerAt cs
        let gainers := gl.filterMap (fun m =>
          match parseFloatStr m.2 with
          | some q => if 0 < q then some (JVal.str (m.1 ++ " " ++ m.2)) else none
          | none => none)
        let losers := gl.filterMap (fun m =>
          match parseFloatStr m.2 with
          | some q => if q < 0 then some (JVal.str (m.1 ++ " " ++ m.2)) else none
          | none => none)
        let overview :=
          match findFirstMatch (matchOverviewAt ["市场", "行情", "今日", "今日市场", "大盘"] 20 150) cs with
          | some o => o
          | none =>
              match findFirstMatch (matchOverviewAt ["上涨", "下跌", "涨幅", "跌幅"] 10 100) cs with
              | some o => o
              | none => ""
        if !stocks.isEmpty || !indices.isEmpty || overview ≠ "" ||
            !gainers.isEmpty || !losers.isEmpty then
          some (JVal.obj
            [("stocks", .arr stocks),
             ("indices", .arr indices),
             ("marketOverview", .str overview),
             ("topGainers", .arr gainers),
             ("topLosers", .arr losers)])
        else none
  | _ => none

/-! ### Aggregation-path stock extraction (extractStockData) -/

/-- A stock entry produced by extractStockData: the pushed object's
fields in source form, tagged with its site. -/
structure TaggedStock where
  symbol : JVal
  name : JVal
  price : JVal
  change : JVal
  change_percent : JVal
  volume : JVal
  site : String
  deriving Repr, Inhabited, DecidableEq

/-- The placeholder/validity filter applied to one candidate stock
object on the aggregation path: symbol present and not a known sample
value, name not a literal placeholder. -/
def stockOk (st : JVal) : Bool :=
  (match st.getF "symbol" with
   | some v =>
       v.truthy &&
       !(JVal.beq v (.str "未提供公司名称")) &&
       !(JVal.beq v (.str "AAPL")) &&
       !(JVal.beq v (.str "GOOGL")) &&
       !(JVal.beq v (.str "stock symbol"))
   | none => false) &&
  (match st.getF "name" with
   | some v =>
       !(JVal.beq v (.str "company name")) && !(JVal.beq v (.str "N/A"))
   | none => true)

/-- The object pushed for an accepted stock, fields defaulted with
the N/A fallback as in the source. -/
def mkTagged (site : String) (st : JVal) : TaggedStock :=
  { symbol := (st.getF "symbol").getD .null
    name := JVal.jsOr (st.getF "name") (.str "N/A")
    price := JVal.jsOr (st.getF "price") (.str "N/A")
    change := JVal.jsOr (st.getF "change") (.str "N/A")
    change_percent := JVal.jsOr (st.getF "change_percent") (.str "N/A")
    volume := JVal.jsOr (st.getF "volume") (.str "N/A")
    site := site }

/-- Per-site body of the extractStockData loop: skip non-object site
data, skip absent, falsy or string ai_processed_data, read the stocks
array (the payload itself when it is an array), and keep the candidates
passing the placeholder filter. -/
def extractSiteStocks (site : String) (sd : JVal) : List TaggedStock :=
  if sd.truthy && sd.isObjType then
    match sd.getF "ai_processed_data" with
    | none => []
    | some pd =>
        if pd.truthy then
          match pd with
          | .str _ => []
          | _ =>
              let stocksArray : List JVal :=
                match pd with
                | .arr xs => xs
                | _ =>
                    match pd.getF "stocks" with
                    | some (.arr xs) => xs
                    | _ => []
              stocksArray.filterMap (fun st =>
                if st.truthy && st.isObjType && stockOk st then
                  some (mkTagged site st)
                else none)
        else []
  else []

/-- extractStockData: the only extraction used for the per-record stock
count and the chart aggregates.  Walks the record's per-site data and
concatenates the per-site results; errors inside one site are contained
by the source's try/catch and cannot occur in this pure model. -/
def extractStockData (record : JVal) : List TaggedStock :=
  if record.truthy then
    match record.getF "data" with
    | none => []
    | some d =>
        if d.truthy then
          (d.jsEntries).flatMap (fun e => extractSiteStocks e.1 e.2)
        else []
  else []

/-! ### Chart aggregates (prepareChartData) -/

/-- The filter of valid stocks for charting: truthy price that parses
to a positive number and is not a literal dash or N/A placeholder. -/
def validStock (st : TaggedStock) : Bool :=
  st.price.truthy &&
  (match jsParseFloat st.price with
   | some q => decide (0 < q)
   | none => false) &&
  !(JVal.beq st.price (.str "-")) &&
  !(JVal.beq st.price (.str "N/A"))

/-- The test (name && name.length > 15) used by the display-name
truncation; .length is defined for strings and arrays and undefined
(hence not greater) otherwise. -/
def nameLenGt15 : JVal → Bool
  | .str s => 15 < s.length
  | .arr xs => 15 < xs.length
  | _ => false

/-- Display name: strings longer than 15 characters are cut and given
an ellipsis, otherwise the name itself or the N/A default.  (For an
array longer than 15 the source's substring call would throw, the
surrounding try/catch would abandon the whole chart; such names are
excluded by hypothesis where this matters.) -/
def displayName (name : JVal) : JVal :=
  if name.truthy && nameLenGt15 name then
    match name with
    | .str s => .str (String.mk (s.toList.take 15) ++ "...")
    | _ => .str "..."
  else JVal.jsOr (some name) (.str "N/A")

/-- An entry of the price-ranking chart data. -/
structure PEntry where
  name : JVal
  price : ℚ
  symbol : JVal
  deriving Repr, DecidableEq

/-- An entry of the change-ranking chart data. -/
structure CEntry where
  name : JVal
  change : ℚ
  symbol : JVal
  deriving Repr, DecidableEq

/-- Insert into a descending-by-key list, after any element of equal
key: the behaviour of a stable sort (guaranteed by the JS spec) with
comparator (b, a) => key b - key a, one element at a time. -/
def insDescBy {α : Type} (key : α → ℚ) (x : α) : List α → List α
  | [] => [x]
  | y :: ys => if key y < key x then x :: y :: ys else y :: insDescBy key x ys

/-- Stable descending sort by a rational key (insertion sort).  Equal
to the unique stable result of the source's Array.prototype.sort with
a consistent numeric comparator. -/
def stableSortDescBy {α : Type} (key : α → ℚ) (l : List α) : List α :=
  l.foldl (fun acc x => insDescBy key x acc) []

/-- The price entry built for one valid stock; the parse succeeds for
every stock passing validStock, and the source's redundant isNaN
re-filter after the map drops nothing. -/
def mkPriceEntry (st : TaggedStock) : PEntry :=
  { name := displayName st.name
    price := (jsParseFloat st.price).getD 0
    symbol := st.symbol }

/-- priceData: valid stocks mapped to display entries, sorted
descending by numeric price, top 20. -/
def priceData (stocks : List TaggedStock) : List PEntry :=
  (stableSortDescBy (fun e => e.price)
    ((stocks.filter validStock).map mkPriceEntry)).take 20

/-- The change-percent filter on valid stocks: truthy and not a
literal dash or N/A. -/
def cpOk (st : TaggedStock) : Bool :=
  st.change_percent.truthy &&
  !(JVal.beq st.change_percent (.str "-")) &&
  !(JVal.beq st.change_percent (.str "N/A"))

/-- parseFloat(String(cp).replace of the first percent sign). -/
def parseCp (v : JVal) : Option ℚ :=
  match v with
  | .num q => some q
  | _ => parseFloatStr (stripFirstPercent (jsToString v))

/-- The change entry built for one stock: an unparsable percentage
becomes change 0 (the isNaN ? 0 branch of the source), and the
redundant isNaN re-filter after the map drops nothing. -/
def mkChangeEntry (st : TaggedStock) : CEntry :=
  { name := displayName st.name
    change := (parseCp st.change_percent).getD 0
    symbol := st.symbol }

/-- changeData: valid stocks with a present change percent, mapped to
entries, sorted descending by absolute change, top 20. -/
def changeData (stocks : List TaggedStock) : List CEntry :=
  (stableSortDescBy (fun e => |e.change|)
    (((stocks.filter validStock).filter cpOk).map mkChangeEntry)).take 20

/-- Insert into a list of indexed elements ordered by key descending
and, on equal keys, by original index ascending: the specification-side
description of a stable descending sort. -/
def insDescIdxBy {α : Type} (key : α → ℚ) (p : Nat × α) :
    List (Nat × α) → List (Nat × α)
  | [] => [p]
  | q :: qs =>
      if key q.2 < key p.2 ∨ (key q.2 = key p.2 ∧ p.1 < q.1) then p :: q :: qs
      else q :: insDescIdxBy key p qs

/-- Sort indexed elements by the strict total lexicographic order
(key descending, then original position ascending); because the order
is total and strict, the sorted arrangement is unique, making this a
definitional reading of the claim's stable-descending requirement. -/
def lexSortDescBy {α : Type} (key : α → ℚ) (l : List (Nat × α)) : List (Nat × α) :=
  l.foldl (fun acc p => insDescIdxBy key p acc) []

/-! ### JSON.parse model

A fueled JSON parser over character lists; fuel bounds the nesting
depth and the text length bounds both, so length-plus-one fuel is
always sufficient.  Surrogate-pair escape combining is not modelled
(no crawl payload uses astral-plane escapes). -/

/-- JSON whitespace: space, tab, line feed, carriage return. -/
def skipJsonWs (cs : List Char) : List Char :=
  cs.dropWhile (fun c => c = ' ' || c = '\t' || c = '\n' || c = '\r')

def hexDigitVal (c : Char) : Option Nat :=
  if '0' ≤ c ∧ c ≤ '9' then some (c.toNat - 48)
  else if 'a' ≤ c ∧ c ≤ 'f' then some (c.toNat - 87)
  else if 'A' ≤ c ∧ c ≤ 'F' then some (c.toNat - 55)
  else none

/-- JSON string body parser (after the opening quote). -/
def jsonStrGo : Nat → List Char → List Char → Option (String × List Char)
  | 0, _, _ => none
  | _ + 1, _, [] => none
  | fuel + 1, acc, c :: r =>
      if c = '"' then some (String.mk acc.reverse, r)
      else if c = '\\' then
        match r with
        | [] => none
        | e :: r2 =>
            if e = '"' then jsonStrGo fuel ('"' :: acc) r2
            else if e = '\\' then jsonStrGo fuel ('\\' :: acc) r2
            else if e = '/' then jsonStrGo fuel ('/' :: acc) r2
            else if e = 'b' then jsonStrGo fuel ('\x08' :: acc) r2
            else if e = 'f' then jsonStrGo fuel ('\x0c' :: acc) r2
            else if e = 'n' then jsonStrGo fuel ('\n' :: acc) r2
            else if e = 'r' then jsonStrGo fuel ('\r' :: acc) r2
            else if e = 't' then jsonStrGo fuel ('\t' :: acc) r2
            else if e = 'u' then
              match r2 with
              | h1 :: h2 :: h3 :: h4 :: r3 =>
                  match hexDigitVal h1, hexDigitVal h2, hexDigitVal h3, hexDigitVal h4 with
                  | some a, some b, some c2, some d =>
                      let n := ((a * 16 + b) * 16 + c2) * 16 + d
                      if n < 0xd800 ∨ 0xdfff < n then
                        jsonStrGo fuel (Char.ofNat n :: acc) r3
                      else none
                  | _, _, _, _ => none
              | _ => none
            else none
      else if c.toNat < 0x20 then none
      else jsonStrGo fuel (c :: acc) r

/-- JSON number grammar: optional minus, integer part without leading
zeros, optional fraction, optional exponent. -/
def jsonNumber (cs : List Char) : Option (ℚ × List Char) :=
  let sgn : ℚ := match cs with
    | '-' :: _ => -1
    | _ => 1
  let cs1 := match cs with
    | '-' :: r => r
    | _ => cs
  let d1 := cs1.takeWhile Char.isDigit
  let r1 := cs1.dropWhile Char.isDigit
  if d1.isEmpty then none
  else if 1 < d1.length ∧ d1.head? = some '0' then none
  else
    let fracBad := match r1 with
      | '.' :: t => (t.takeWhile Char.isDigit).isEmpty
      | _ => false
    if fracBad then none
    else
      let (d2, r2) := match r1 with
        | '.' :: t => (t.takeWhile Char.isDigit, t.dropWhile Char.isDigit)
        | _ => ([], r1)
      let mant : ℚ := sgn * ((digitsToNat d1 : ℚ) + (digitsToNat d2 : ℚ) / (10 : ℚ) ^ d2.length)
      match r2 with
      | e :: t =>
          if e = 'e' ∨ e = 'E' then
            let es : ℤ := match t with
              | '-' :: _ => -1
              | _ => 1
            let t2 := match t with
              | '+' :: u => u
              | '-' :: u => u
              | _ => t
            let d3 := t2.takeWhile Char.isDigit
            if d3.isEmpty then none
            else some (mant * (10 : ℚ) ^ (es * (digitsToNat d3 : ℤ)), t2.dropWhile Char.isDigit)
          else some (mant, r2)
      | [] => some (mant, [])

mutual

/-- One JSON value with leading whitespace. -/
def jsonVal : Nat → List Char → Option (JVal × List Char)
  | 0, _ => none
  | fuel + 1, cs0 =>
      let cs := skipJsonWs cs0
      match cs with
      | '"' :: r => (jsonStrGo (r.length + 1) [] r).map (fun p => (JVal.str p.1, p.2))
      | '[' :: r =>
          let r1 := skipJsonWs r
          (match r1 with
           | ']' :: t => some (JVal.arr [], t)
           | _ => jsonArrGo fuel r1 [])
      | '\x7b' :: r =>
          let r1 := skipJsonWs r
          (match r1 with
           | '\x7d' :: t => some (JVal.obj [], t)
           | _ => jsonObjGo fuel r1 [])
      | _ =>
          if litHere "null" cs then some (.null, cs.drop 4)
          else if litHere "true" cs then some (.bool true, cs.drop 4)
          else if litHere "false" cs then some (.bool false, cs.drop 5)
          else (jsonNumber cs).map (fun p => (JVal.num p.1, p.2))

/-- Array elements after the opening bracket (nonempty case). -/
def jsonArrGo : Nat → List Char → List JVal → Option (JVal × List Char)
  | 0, _, _ => none
  | fuel + 1, cs, acc =>
      match jsonVal fuel cs with
      | none => none
      | some (v, r) =>
          match skipJsonWs r with
          | ']' :: t => some (JVal.arr (v :: acc).reverse, t)
          | ',' :: t => jsonArrGo fuel t (v :: acc)
          | _ => none

/-- Object members after the opening brace (nonempty case). -/
def jsonObjGo : Nat → List Char → List (String × JVal) → Option (JVal × List Char)
  | 0, _, _ => none
  | fuel + 1, cs, acc =>
      match skipJsonWs cs with
      | '"' :: r =>
          match jsonStrGo (r.length + 1) [] r with
          | none => none
          | some (k, r2) =>
              match skipJsonWs r2 with
              | ':' :: r3 =>
                  match jsonVal fuel r3 with
                  | none => none
                  | some (v, r4) =>
                      match skipJsonWs r4 with
                      | '\x7d' :: t => some (JVal.obj ((k, v) :: acc).reverse, t)
                      | ',' :: t => jsonObjGo fuel t ((k, v) :: acc)
                      | _ => none
              | _ => none
      | _ => none

end

/-- JSON.parse: a value covering the whole text (modulo whitespace),
else a parse failure. -/
def jsonParse (s : String) : Option JVal :=
  match jsonVal (s.length + 1) s.toList with
  | some (v, rest) => if (skipJsonWs rest).isEmpty then some v else none
  | none => none

/-! ### Followed-links table and text extraction -/

/-- A stock candidate recovered from a followed-links table row. -/
structure TStock where
  symbol : String
  name : String
  price : String
  change : String
  change_percent : String
  volume : String
  deriving Repr, DecidableEq, Inhabited

/-- First character class of the exchange-code alternation. -/
def isCodeStart (c : Char) : Bool :=
  ('0' ≤ c && c ≤ '3') || c = '6'

/-- Attempt the word-bounded six-digit exchange code at this position:
a word boundary before, six digits with leading digit 0 to 3 or 6, and
a word boundary after. -/
def codeHere (prev : Option Char) (cs : List Char) : Option String :=
  if (match prev with | some p => isWordCh p | none => false) then none
  else
    match cs with
    | c1 :: c2 :: c3 :: c4 :: c5 :: c6 :: rest =>
        if isCodeStart c1 && [c2, c3, c4, c5, c6].all Char.isDigit &&
            (match rest with | r :: _ => !isWordCh r | [] => true) then
          some (String.mk [c1, c2, c3, c4, c5, c6])
        else none
    | _ => none

/-- First word-bounded exchange code in the text (leftmost). -/
def findCodeGo : Option Char → List Char → Option String
  | _, [] => none
  | prev, c :: rest =>
      match codeHere prev (c :: rest) with
      | some s => some s
      | none => findCodeGo (some c) rest

def findCode (cs : List Char) : Option String :=
  findCodeGo none cs

/-- Full-string test for an unsigned decimal with a mandatory dot. -/
def isFullDecimal (s : String) : Bool :=
  let cs := s.toList
  let d1 := cs.takeWhile Char.isDigit
  match cs.dropWhile Char.isDigit with
  | '.' :: r => !d1.isEmpty && !r.isEmpty && r.all Char.isDigit
  | _ => false

/-- Full-string test for an optionally signed decimal without a
percent sign. -/
def isFullSignedDec (s : String) : Bool :=
  let cs := match s.toList with
    | c :: r => if c = '+' ∨ c = '-' then r else s.toList
    | [] => []
  let d1 := cs.takeWhile Char.isDigit
  if d1.isEmpty then false
  else
    match cs.dropWhile Char.isDigit with
    | [] => true
    | '.' :: r => r.all Char.isDigit
    | _ => false

/-- Containment test for a signed decimal with a trailing percent sign
(the unanchored test of the row cells). -/
def hasSignedPct (s : String) : Bool :=
  (findFirstMatch
    (fun cs => (signedPctTok cs).map (fun p => ((), cs.length - p.2.length)))
    s.toList).isSome

/-- Full-string test for an integer with an optional Chinese magnitude
suffix. -/
def isFullIntVol (s : String) : Bool :=
  let cs := s.toList
  let d := cs.takeWhile Char.isDigit
  !d.isEmpty &&
    (match cs.dropWhile Char.isDigit with
     | [] => true
     | [c] => c = '万' || c = '千'
     | _ => false)

/-- The JS expression (x || d) on optional cell strings. -/
def cellOr (o : Option String) (d : String) : String :=
  match o with
  | some s => if s = "" then d else s
  | none => d

/-- One followed-links table row: needs at least two cells and a
word-bounded exchange code in the space-joined row text; the candidate
fields are filled from positional and pattern cues. -/
def rowStock (row : List String) : Option TStock :=
  if 2 ≤ row.length then
    match findCode (String.intercalate " " row).toList with
    | some code =>
        some { symbol := code
               name := cellOr (row.get? 1) (cellOr (row.get? 0) "N/A")
               price := cellOr (row.get? 2) (cellOr (row.find? isFullDecimal) "N/A")
               change := cellOr (row.find? isFullSignedDec) "N/A"
               change_percent := cellOr (row.find? hasSignedPct) "N/A"
               volume := cellOr (row.find? isFullIntVol) "N/A" }
    | none => none
  else none

/-- Stocks of one table: the header row (index 0) is skipped, every
other row contributes its candidate if any. -/
def tableStocks (table : List (List String)) : List TStock :=
  table.enum.filterMap (fun p => if p.1 = 0 then none else rowStock p.2)

/-- One secondary-page scrape result. -/
structure LinkData where
  tables : List (List (List String)) := []
  text : Option String := none
  deriving Repr, Inhabited

/-- The reduced index vocabulary used on followed-link text. -/
def indexNames6 : List String :=
  ["上证指数", "深证成指", "创业板指", "沪深300", "中证500", "上证50"]

/-- One attempted match of the link-text index pattern: a common index
name, colon or whitespace separators, then a decimal value. -/
def matchLinkIndexAt (cs : List Char) : Option ((String × String) × Nat) :=
  match firstLitHere indexNames6 cs with
  | none => none
  | some (nm, r1) =>
      if (r1.takeWhile isSep2Ch).isEmpty then none
      else
        match numTok (r1.dropWhile isSep2Ch) with
        | none => none
        | some (v, r3) => some ((nm, String.mk v), cs.length - r3.length)

/-- Walk the followed-links data: table rows yield stock candidates,
link text yields index mentions, all accumulated in order. -/
def extractFollowedLinks (links : List LinkData) :
    List TStock × List (String × String) :=
  links.foldl
    (fun acc link =>
      let s1 := if !link.tables.isEmpty then link.tables.flatMap tableStocks else []
      let i1 := match link.text with
        | some t => if t ≠ "" then scanAll matchLinkIndexAt t.toList else []
        | none => []
      (acc.1 ++ s1, acc.2 ++ i1))
    ([], [])

/-- A table-extracted candidate as the object pushed by the source. -/
def tstockToJVal (t : TStock) : JVal :=
  .obj [("symbol", .str t.symbol), ("name", .str t.name), ("price", .str t.price),
        ("change", .str t.change), ("change_percent", .str t.change_percent),
        ("volume", .str t.volume)]

/-- A link-text index mention as the object pushed by the source. -/
def tidxToJVal (p : String × String) : JVal :=
  .obj [("name", .str p.1), ("value", .str (if p.2 = "" then "N/A" else p.2)),
        ("change", .str "N/A"), ("change_percent", .str "N/A")]

/-! ### Per-site canonicalization (the render-path pipeline) -/

/-- The payload-bearing fields of one site's datum that the pipeline
reads.  The error and preview fields are modelled as present-and-truthy
strings or absent (a non-string truthy preview would fail the raw-text
extractor's type test and behave like an absent one). -/
structure SiteDatumRec where
  error : Option String := none
  raw_data_preview : Option String := none
  followed_links_data : List LinkData := []
  ai_processed_data : JVal := .null

/-- What the pipeline renders for one site, reduced to its data
content: nothing (hidden), the empty-data notice, the error notice, or
the extracted content fields. -/
structure SiteContent where
  stocks : JVal
  indices : JVal
  topGainers : JVal
  topLosers : JVal
  marketOverview : JVal
  tradingSummary : JVal
  isRawResponse : Bool
  deriving Repr, DecidableEq

inductive SiteView where
  | hidden : SiteView
  | emptyNotice : SiteView
  | errorNotice : String → Option String → SiteView
  | content : SiteContent → SiteView
  deriving Repr, DecidableEq

/-- The per-site pipeline of the record display: the early error
return, the empty-payload raw-preview fallback, the followed-links
extraction and merge (which assigns into the payload object in place:
the second component is the value the record's ai_processed_data holds
afterwards), the JSON-string decode with raw-text fallback, the
raw-response wrapper transform, and the content assembly with the
web-scraped-site hiding rules. -/
def canonicalizeSite (isWebScrapedSite : Bool) (sd : Option SiteDatumRec) :
    SiteView × JVal :=
  match sd with
  | none => ((if isWebScrapedSite then .hidden else .emptyNotice), JVal.null)
  | some d =>
      match d.error with
      | some e =>
          ((if isWebScrapedSite then .hidden else .errorNotice e d.raw_data_preview),
           d.ai_processed_data)
      | none =>
          let pd0 := d.ai_processed_data
          let t1 : Option JVal :=
            if !pd0.truthy || (pd0.isObjType && pd0.jsKeys.isEmpty) then
              match d.raw_data_preview with
              | some rp => if rp ≠ "" then transformRawData (.str rp) else none
              | none => none
            else none
          let pd1 := match t1 with
            | some t => t
            | none => pd0
          let ex := extractFollowedLinks d.followed_links_data
          let doMerge := !d.followed_links_data.isEmpty &&
            (!ex.1.isEmpty || !ex.2.isEmpty)
          let pd2 :=
            if doMerge then
              let base := if pd1.truthy && pd1.isObjType then pd1 else JVal.obj []
              let base1 :=
                if !ex.1.isEmpty then
                  base.setF "stocks"
                    (.arr ((JVal.jsOr (base.getF "stocks") (.arr [])).spreadList ++
                      ex.1.map tstockToJVal))
                else base
              if !ex.2.isEmpty then
                base1.setF "indices"
                  (.arr ((JVal.jsOr (base1.getF "indices") (.arr [])).spreadList ++
                    ex.2.map tidxToJVal))
              else base1
            else pd1
          let mutated := doMerge && pd1.truthy && pd1.isObjType && t1.isNone
          let st3 : JVal × Bool :=
            match pd2 with
            | .str s =>
                (match jsonParse s with
                 | some v => (v, false)
                 | none =>
                     match transformRawData (.str s) with
                     | some t => (t, false)
                     | none => (JVal.null, true))
            | _ =>
                if pd2.truthy && pd2.isObjType then
                  match pd2.getF "raw_response" with
                  | some rr =>
                      (match transformRawData rr with
                       | some t =>
                           let m1 := match pd2.getF "stocks" with
                             | some sv =>
                                 if sv.truthy then
                                   t.setF "stocks"
                                     (.arr ((JVal.jsOr (t.getF "stocks") (.arr [])).spreadList ++
                                       sv.spreadList))
                                 else t
                             | none => t
                           let m2 := match pd2.getF "indices" with
                             | some iv =>
                                 if iv.truthy then
                                   m1.setF "indices"
                                     (.arr ((JVal.jsOr (t.getF "indices") (.arr [])).spreadList ++
                                       iv.spreadList))
                                 else m1
                             | none => m1
                           (m2, false)
                       | none => (JVal.null, true))
                  | none => (pd2, false)
                else (pd2, false)
          let pd3 := st3.1
          let isRaw := st3.2
          let live := pd3.truthy && !isRaw
          let stocks := if live then JVal.jsOr (pd3.getF "stocks") (.arr []) else .arr []
          let indices := if live then JVal.jsOr (pd3.getF "indices") (.arr []) else .arr []
          let gainers := if live then JVal.jsOr (pd3.getF "top_gainers") (.arr []) else .arr []
          let losers := if live then JVal.jsOr (pd3.getF "top_losers") (.arr []) else .arr []
          let overview := if live then JVal.jsOr (pd3.getF "market_overview") (.str "N/A") else .str "N/A"
          let summary := if live then JVal.jsOr (pd3.getF "trading_summary") (.str "") else .str ""
          let finalPayload := if mutated then pd2 else pd0
          if isWebScrapedSite && pd3.truthy && stocks.lenEq0 && indices.lenEq0 &&
              gainers.lenEq0 && losers.lenEq0 && JVal.beq overview (.str "N/A") &&
              !summary.truthy then
            (.hidden, finalPayload)
          else
            (.content ⟨stocks, indices, gainers, losers, overview, summary, isRaw⟩,
             finalPayload)

end StockMarket

namespace StockMarket

/-! ## Claim theorems -/

/-- C4: for the raw text 600519:贵州茅台:1688.00:+12.50:+0.75%, the
raw-text fallback returns a structure whose stocks are exactly one
candidate with symbol 600519, name 贵州茅台, price 1688.00, change
+12.50, change percent +0.75%, and volume reported as unknown. -/
theorem C4_raw_text_fallback_extracts_stock :
    (transformRawData (.str "600519:贵州茅台:1688.00:+12.50:+0.75%")).bind
        (fun v => v.getF "stocks") =
      some (.arr [.obj
        [("symbol", .str "600519"),
         ("name", .str "贵州茅台"),
         ("price", .str "1688.00"),
         ("change", .str "+12.50"),
         ("change_percent", .str "+0.75%"),
         ("volume", .str "N/A")]]) := rfl

/-- C3: a site datum carrying an explicit error marker together with a
non-empty raw-text preview is returned as an error notice only; the
raw-text extractor is never attempted on the preview, although (second
conjunct) it would have recovered structure from it.  This evaluates
the code at the failing input of the code-bug verdict. -/
theorem C3_error_payload_returns_without_recovery :
    (canonicalizeSite false (some
        { error := some "AI处理失败"
          raw_data_preview := some "600519:贵州茅台:1688.00:+12.50:+0.75%" })).1 =
      SiteView.errorNotice "AI处理失败"
        (some "600519:贵州茅台:1688.00:+12.50:+0.75%")
    ∧ (transformRawData (.str "600519:贵州茅台:1688.00:+12.50:+0.75%")).isSome = true :=
  ⟨rfl, rfl⟩

/-- C2: the followed-links merge assigns into the record's payload
object in place: after canonicalization the record's ai_processed_data
holds the merged stocks and is no longer the value it held before.
This evaluates the code at the failing input of the code-bug verdict. -/
theorem C2_followed_links_merge_mutates_record :
    (canonicalizeSite false (some
        { ai_processed_data := .obj [("stocks", .arr [.obj [("symbol", .str "600519")]])]
          followed_links_data :=
            [{ tables := [[["代码", "名称", "价格"], ["600000", "浦发银行", "10.50"]]] }] })).2 =
      .obj [("stocks", .arr
        [.obj [("symbol", .str "600519")],
         .obj [("symbol", .str "600000"), ("name", .str "浦发银行"),
               ("price", .str "10.50"), ("change", .str "600000"),
               ("change_percent", .str "N/A"), ("volume", .str "600000")]])]
    ∧ (canonicalizeSite false (some
        { ai_processed_data := .obj [("stocks", .arr [.obj [("symbol", .str "600519")]])]
          followed_links_data :=
            [{ tables := [[["代码", "名称", "价格"], ["600000", "浦发银行", "10.50"]]] }] })).2 ≠
      .obj [("stocks", .arr [.obj [("symbol", .str "600519")]])] :=
  ⟨rfl, by decide⟩

/-- C8: when followed-links data yields stocks, a JSON-encoded string
payload is replaced by a fresh empty object before the string-decoding
step, so the payload is never decoded: the displayed stocks hold only
the table candidate, although (first conjunct) the string decodes to a
structured payload with its own stock.  This evaluates the code at the
failing input of the code-bug verdict. -/
theorem C8_string_payload_discarded_by_merge :
    jsonParse "\x7b\"stocks\":[\x7b\"symbol\":\"000001\",\"name\":\"平安银行\"\x7d]\x7d" =
      some (.obj [("stocks", .arr [.obj [("symbol", .str "000001"), ("name", .str "平安银行")]])])
    ∧ (canonicalizeSite false (some
        { ai_processed_data :=
            .str "\x7b\"stocks\":[\x7b\"symbol\":\"000001\",\"name\":\"平安银行\"\x7d]\x7d"
          followed_links_data :=
            [{ tables := [[["代码", "名称", "价格"], ["600000", "浦发银行", "10.50"]]] }] })).1 =
      SiteView.content
        ⟨.arr [.obj [("symbol", .str "600000"), ("name", .str "浦发银行"),
               ("price", .str "10.50"), ("change", .str "600000"),
               ("change_percent", .str "N/A"), ("volume", .str "600000")]],
         .arr [], .arr [], .arr [], .str "N/A", .str "", false⟩ :=
  ⟨rfl, rfl⟩

/-- C1 counterexample: a structured payload whose stock carries the
placeholder symbol AAPL is displayed unfiltered by the per-site
canonicalization path — the placeholder exclusion does not hold on
every extraction path. -/
theorem C1_display_path_shows_placeholder_symbol :
    (canonicalizeSite false (some
        { ai_processed_data :=
            .obj [("stocks", .arr [.obj [("symbol", .str "AAPL"), ("name", .str "Apple")]])] })).1 =
      SiteView.content
        ⟨.arr [.obj [("symbol", .str "AAPL"), ("name", .str "Apple")]],
         .arr [], .arr [], .arr [], .str "N/A", .str "", false⟩ := rfl

/-- C6 counterexample: a stock whose change percent does not parse
(after stripping a percent sign) is retained in the change ranking with
change value 0 rather than excluded. -/
theorem C6_unparsable_percent_retained :
    changeData [⟨.str "000001", .str "X", .str "10", .str "N/A", .str "abc", .str "N/A", "s"⟩] =
      [⟨.str "X", 0, .str "000001"⟩]
    ∧ parseCp (.str "abc") = none :=
  ⟨by decide, rfl⟩

end StockMarket

namespace StockMarket

/-! ### Sorting lemmas -/

theorem mem_insDescBy {α : Type} (key : α → ℚ) (x : α) (l : List α) (y : α) :
    y ∈ insDescBy key x l ↔ y = x ∨ y ∈ l := by
  induction l with
  | nil => simp [insDescBy]
  | cons z zs ih =>
      by_cases h : key z < key x
      · simp [insDescBy, h]
      · simp only [insDescBy, if_neg h, List.mem_cons, ih]
        tauto

theorem insDescBy_perm {α : Type} (key : α → ℚ) (x : α) (l : List α) :
    (insDescBy key x l).Perm (x :: l) := by
  induction l with
  | nil => exact List.Perm.refl _
  | cons z zs ih =>
      by_cases h : key z < key x
      · simp [insDescBy, h]
      · simp only [insDescBy, if_neg h]
        exact ((ih.cons z).trans (List.Perm.swap x z zs))

theorem stableSortDescBy_perm {α : Type} (key : α → ℚ) (l : List α) :
    (stableSortDescBy key l).Perm l := by
  suffices h : ∀ acc : List α,
      (l.foldl (fun acc x => insDescBy key x acc) acc).Perm (l.reverse ++ acc) by
    have h0 := h []
    simp only [List.append_nil] at h0
    exact h0.trans (List.reverse_perm l)
  induction l with
  | nil => intro acc; simp
  | cons z zs ih =>
      intro acc
      simp only [List.foldl_cons, List.reverse_cons, List.append_assoc,
        List.singleton_append]
      exact (ih (insDescBy key z acc)).trans
        (List.Perm.append_left _ (insDescBy_perm key z acc))

theorem pairwise_insDescBy {α : Type} (key : α → ℚ) (x : α) (l : List α)
    (h : l.Pairwise (fun a b => key b ≤ key a)) :
    (insDescBy key x l).Pairwise (fun a b => key b ≤ key a) := by
  induction l with
  | nil => simp [insDescBy]
  | cons z zs ih =>
      rcases List.pairwise_cons.mp h with ⟨hz, hzs⟩
      by_cases hlt : key z < key x
      · simp only [insDescBy, if_pos hlt]
        refine List.pairwise_cons.mpr ⟨?_, h⟩
        intro b hb
        rcases List.mem_cons.mp hb with hb | hb
        · exact hb ▸ le_of_lt hlt
        · exact (hz b hb).trans (le_of_lt hlt)
      · simp only [insDescBy, if_neg hlt]
        refine List.pairwise_cons.mpr ⟨?_, ih hzs⟩
        intro b hb
        rcases (mem_insDescBy key x zs b).mp hb with hb | hb
        · exact hb ▸ le_of_not_lt hlt
        · exact hz b hb

theorem pairwise_stableSortDescBy {α : Type} (key : α → ℚ) (l : List α) :
    (stableSortDescBy key l).Pairwise (fun a b => key b ≤ key a) := by
  suffices h : ∀ acc : List α, acc.Pairwise (fun a b => key b ≤ key a) →
      (l.foldl (fun acc x => insDescBy key x acc) acc).Pairwise
        (fun a b => key b ≤ key a) from h [] (by simp)
  induction l with
  | nil => intro acc hacc; simpa using hacc
  | cons z zs ih =>
      intro acc hacc
      exact ih _ (pairwise_insDescBy key z acc hacc)

theorem mem_insDescIdxBy {α : Type} (key : α → ℚ) (p : Nat × α)
    (l : List (Nat × α)) (y : Nat × α) :
    y ∈ insDescIdxBy key p l ↔ y = p ∨ y ∈ l := by
  induction l with
  | nil => simp [insDescIdxBy]
  | cons q qs ih =>
      by_cases h : key q.2 < key p.2 ∨ (key q.2 = key p.2 ∧ p.1 < q.1)
      · simp [insDescIdxBy, h]
      · simp only [insDescIdxBy, if_neg h, List.mem_cons, ih]
        tauto

theorem map_snd_insDescIdxBy {α : Type} (key : α → ℚ) (x : α) (i : Nat)
    (acc : List (Nat × α)) (h : ∀ p ∈ acc, p.1 < i) :
    (insDescIdxBy key (i, x) acc).map Prod.snd =
      insDescBy key x (acc.map Prod.snd) := by
  induction acc with
  | nil => rfl
  | cons q qs ih =>
      have hq : q.1 < i := h q (List.mem_cons_self q qs)
      by_cases hlt : key q.2 < key x
      · have hcond : key q.2 < key (i, x).2 ∨
            (key q.2 = key (i, x).2 ∧ (i, x).1 < q.1) := Or.inl hlt
        simp [insDescIdxBy, insDescBy, if_pos hcond, hlt]
      · have hcond : ¬(key q.2 < key (i, x).2 ∨
            (key q.2 = key (i, x).2 ∧ (i, x).1 < q.1)) := by
          rintro (h1 | ⟨_, h2⟩)
          · exact hlt h1
          · omega
        simp only [insDescIdxBy, if_neg hcond, insDescBy, if_neg hlt,
          List.map_cons]
        rw [ih (fun p hp => h p (List.mem_cons_of_mem q hp))]

theorem stableSortDescBy_eq_lexAux {α : Type} (key : α → ℚ) (l : List α) :
    ∀ (n : Nat) (acc : List (Nat × α)), (∀ p ∈ acc, p.1 < n) →
      ((l.enumFrom n).foldl (fun a p => insDescIdxBy key p a) acc).map Prod.snd =
        l.foldl (fun a x => insDescBy key x a) (acc.map Prod.snd) := by
  induction l with
  | nil => intro n acc _; simp [List.enumFrom]
  | cons z zs ih =>
      intro n acc hacc
      simp only [List.enumFrom, List.foldl_cons]
      rw [ih (n + 1) (insDescIdxBy key (n, z) acc) ?bound,
          map_snd_insDescIdxBy key z n acc hacc]
      case bound =>
        intro p hp
        rcases (mem_insDescIdxBy key (n, z) acc p).mp hp with hp | hp
        · subst hp; omega
        · exact Nat.lt_succ_of_lt (hacc p hp)

/-- The implementation's stable sort equals the take-free part of the
specification-side description: sorting the position-indexed elements
by the strict total order (key descending, then position ascending). -/
theorem stableSortDescBy_eq_lex {α : Type} (key : α → ℚ) (l : List α) :
    stableSortDescBy key l = (lexSortDescBy key l.enum).map Prod.snd := by
  have := stableSortDescBy_eq_lexAux key l 0 [] (by simp)
  simpa [stableSortDescBy, lexSortDescBy, List.enum] using this.symm

end StockMarket

namespace StockMarket

/-! ### The valid-stock filter characterization -/

theorem truthy_of_parse_pos (v : JVal) (q : ℚ)
    (hq : jsParseFloat v = some q) (hpos : 0 < q) : v.truthy = true := by
  cases v with
  | null => rw [show jsParseFloat JVal.null = none from rfl] at hq; cases hq
  | bool b =>
      cases b with
      | false => rw [show jsParseFloat (.bool false) = none from rfl] at hq; cases hq
      | true => rw [show jsParseFloat (.bool true) = none from rfl] at hq; cases hq
  | num q' =>
      have hq' : q' = q := by simpa [jsParseFloat] using hq
      subst hq'
      simp [JVal.truthy, ne_of_gt hpos]
  | str s =>
      by_cases hs : s = ""
      · subst hs
        rw [show jsParseFloat (.str "") = none from rfl] at hq; cases hq
      · simp [JVal.truthy, hs]
  | arr xs => rfl
  | obj fs => rfl

theorem validStock_iff (st : TaggedStock) :
    validStock st = true ↔
      ((∃ q, jsParseFloat st.price = some q ∧ 0 < q) ∧
        st.price ≠ .str "-" ∧ st.price ≠ .str "N/A") := by
  unfold validStock
  constructor
  · intro h
    simp only [Bool.and_eq_true] at h
    obtain ⟨⟨⟨htr, hm⟩, h1⟩, h2⟩ := h
    rcases hp : jsParseFloat st.price with _ | q
    · rw [hp] at hm; cases hm
    · rw [hp] at hm
      refine ⟨⟨q, rfl, of_decide_eq_true hm⟩, ?_, ?_⟩
      · intro hcontra
        rw [Bool.not_eq_true'] at h1
        rw [(JVal.beq_iff st.price (.str "-")).mpr hcontra] at h1
        cases h1
      · intro hcontra
        rw [Bool.not_eq_true'] at h2
        rw [(JVal.beq_iff st.price (.str "N/A")).mpr hcontra] at h2
        cases h2
  · rintro ⟨⟨q, hq, hpos⟩, h1, h2⟩
    simp only [Bool.and_eq_true]
    refine ⟨⟨⟨truthy_of_parse_pos _ _ hq hpos, ?_⟩, ?_⟩, ?_⟩
    · rw [hq]; exact decide_eq_true hpos
    · rw [Bool.not_eq_true', ← Bool.not_eq_true]
      intro hb
      exact h1 ((JVal.beq_iff _ _).mp hb)
    · rw [Bool.not_eq_true', ← Bool.not_eq_true]
      intro hb
      exact h2 ((JVal.beq_iff _ _).mp hb)

/-- C5: the price ranking equals the top 20 of the stable descending
sort of the display entries of exactly the valid stocks (stability
expressed through the unique arrangement ordered by price descending
then original position ascending); it has at most 20 entries, is
descending in price, every entry arises from a valid stock (keeping its
symbol, display name and parsed positive price), a stock is valid
exactly when its price parses to a positive number and is not a dash or
N/A placeholder, and names longer than 15 characters are cut with an
ellipsis. -/
theorem C5_price_ranking (stocks : List TaggedStock) :
    priceData stocks =
      ((lexSortDescBy (fun e => e.price)
        (((stocks.filter validStock).map mkPriceEntry).enum)).map Prod.snd).take 20
    ∧ (priceData stocks).length ≤ 20
    ∧ (priceData stocks).Pairwise (fun a b => b.price ≤ a.price)
    ∧ (∀ e ∈ priceData stocks, ∃ st ∈ stocks, validStock st = true ∧
        e = mkPriceEntry st ∧ jsParseFloat st.price = some e.price ∧ 0 < e.price)
    ∧ (∀ st : TaggedStock, validStock st = true ↔
        ((∃ q, jsParseFloat st.price = some q ∧ 0 < q) ∧
          st.price ≠ .str "-" ∧ st.price ≠ .str "N/A"))
    ∧ (∀ s : String, 15 < s.length →
        displayName (.str s) = .str (String.mk (s.toList.take 15) ++ "...")) := by
  refine ⟨?_, ?_, ?_, ?_, validStock_iff, ?_⟩
  · simp only [priceData]
    rw [stableSortDescBy_eq_lex]
  · simp only [priceData, List.length_take]
    exact Nat.min_le_left _ _
  · exact List.Pairwise.sublist (List.take_sublist _ _)
      (pairwise_stableSortDescBy _ _)
  · intro e he
    have he2 : e ∈ stableSortDescBy (fun e => e.price)
        ((stocks.filter validStock).map mkPriceEntry) :=
      List.take_subset _ _ he
    have he3 := (stableSortDescBy_perm _ _).mem_iff.mp he2
    rcases List.mem_map.mp he3 with ⟨st, hstf, rfl⟩
    rcases List.mem_filter.mp hstf with ⟨hmem, hvalid⟩
    rcases (validStock_iff st).mp hvalid with ⟨⟨q, hq, hpos⟩, _, _⟩
    refine ⟨st, hmem, hvalid, rfl, ?_, ?_⟩
    · simp [mkPriceEntry, hq]
    · simp [mkPriceEntry, hq, hpos]
  · intro s hs
    have hne : s ≠ "" := by
      intro h
      subst h
      simp at hs
    simp [displayName, nameLenGt15, JVal.truthy, hs, hne]

/-- C6 (amended): the change ranking has at most 20 entries, is sorted
descending by absolute parsed change, every entry arises from a valid
stock whose change percent is truthy and not a dash or N/A — with the
parse failure mapped to change 0 rather than exclusion — and when at
most 20 stocks qualify the ranking is a permutation of all of their
entries. -/
theorem C6_change_ranking_amended (stocks : List TaggedStock) :
    (changeData stocks).length ≤ 20
    ∧ (changeData stocks).Pairwise (fun a b => |b.change| ≤ |a.change|)
    ∧ (∀ e ∈ changeData stocks, ∃ st ∈ stocks, validStock st = true ∧
        cpOk st = true ∧ e = mkChangeEntry st ∧
        e.change = (parseCp st.change_percent).getD 0)
    ∧ (((stocks.filter validStock).filter cpOk).length ≤ 20 →
        (changeData stocks).Perm
          (((stocks.filter validStock).filter cpOk).map mkChangeEntry)) := by
  refine ⟨?_, ?_, ?_, ?_⟩
  · simp only [changeData, List.length_take]
    exact Nat.min_le_left _ _
  · exact List.Pairwise.sublist (List.take_sublist _ _)
      (pairwise_stableSortDescBy _ _)
  · intro e he
    have he2 : e ∈ stableSortDescBy (fun e => |e.change|)
        (((stocks.filter validStock).filter cpOk).map mkChangeEntry) :=
      List.take_subset _ _ he
    have he3 := (stableSortDescBy_perm _ _).mem_iff.mp he2
    rcases List.mem_map.mp he3 with ⟨st, hstf, rfl⟩
    rcases List.mem_filter.mp hstf with ⟨hstf2, hcp⟩
    rcases List.mem_filter.mp hstf2 with ⟨hmem, hvalid⟩
    exact ⟨st, hmem, hvalid, hcp, rfl, rfl⟩
  · intro hlen
    have hlen2 : (stableSortDescBy (fun e => |e.change|)
        (((stocks.filter validStock).filter cpOk).map mkChangeEntry)).length ≤ 20 := by
      rw [(stableSortDescBy_perm _ _).length_eq, List.length_map]
      exact hlen
    simp only [changeData]
    rw [List.take_of_length_le hlen2]
    exact stableSortDescBy_perm _ _

end StockMarket


namespace StockMarket

/-! ### Aggregation-path extraction lemmas -/

theorem JVal.ne_of_beq_eq_false {a b : JVal} (h : JVal.beq a b = false) : a ≠ b := by
  intro heq
  subst heq
  rw [(JVal.beq_iff a a).mpr rfl] at h
  cases h

/-- Every member of a per-site extraction is the tagged form of a
payload candidate that passed the placeholder filter. -/
theorem mem_extractSiteStocks {site : String} {sd : JVal} {st : TaggedStock}
    (h : st ∈ extractSiteStocks site sd) :
    ∃ x : JVal, stockOk x = true ∧ st = mkTagged site x := by
  have hmain : ∀ xs : List JVal,
      st ∈ xs.filterMap (fun x =>
        if (x.truthy && x.isObjType && stockOk x) = true then
          some (mkTagged site x) else none) →
      ∃ x : JVal, stockOk x = true ∧ st = mkTagged site x := by
    intro xs hx
    rcases List.mem_filterMap.mp hx with ⟨x, _, hsome⟩
    by_cases hcond : (x.truthy && x.isObjType && stockOk x) = true
    · rw [if_pos hcond] at hsome
      simp only [Bool.and_eq_true] at hcond
      exact ⟨x, hcond.2, ((Option.some.injEq _ _).mp hsome).symm⟩
    · rw [if_neg hcond] at hsome; cases hsome
  unfold extractSiteStocks at h
  split at h
  · split at h
    · cases h
    · split at h
      · split at h
        · cases h
        · exact hmain _ h
      · cases h
  · cases h

theorem extractSiteStocks_site {site : String} {sd : JVal} {st : TaggedStock}
    (h : st ∈ extractSiteStocks site sd) : st.site = site := by
  rcases mem_extractSiteStocks h with ⟨x, _, rfl⟩
  rfl

theorem stockOk_fields {site : String} {x : JVal} (hok : stockOk x = true) :
    (mkTagged site x).symbol ≠ .str "AAPL" ∧
    (mkTagged site x).symbol ≠ .str "GOOGL" ∧
    (mkTagged site x).symbol ≠ .str "未提供公司名称" ∧
    (mkTagged site x).symbol ≠ .str "stock symbol" ∧
    (mkTagged site x).name ≠ .str "company name" := by
  have hok2 := hok
  unfold stockOk at hok2
  simp only [Bool.and_eq_true] at hok2
  obtain ⟨hsym, hname⟩ := hok2
  rcases hv : x.getF "symbol" with _ | v
  · rw [hv] at hsym; cases hsym
  · rw [hv] at hsym
    simp only [Bool.and_eq_true, Bool.not_eq_true'] at hsym
    obtain ⟨⟨⟨⟨_, hbPh⟩, hbA⟩, hbG⟩, hbS⟩ := hsym
    have hsymv : (mkTagged site x).symbol = v := by simp [mkTagged, hv]
    have hnameGoal : (mkTagged site x).name ≠ .str "company name" := by
      rcases hn : x.getF "name" with _ | v'
      · have : (mkTagged site x).name = .str "N/A" := by
          simp [mkTagged, hn, JVal.jsOr]
        rw [this]; decide
      · rw [hn] at hname
        simp only [Bool.and_eq_true, Bool.not_eq_true'] at hname
        obtain ⟨hc1, _⟩ := hname
        by_cases htr : v'.truthy = true
        · have : (mkTagged site x).name = v' := by
            simp [mkTagged, hn, JVal.jsOr, htr]
          rw [this]; exact JVal.ne_of_beq_eq_false hc1
        · have : (mkTagged site x).name = .str "N/A" := by
            simp [mkTagged, hn, JVal.jsOr, htr]
          rw [this]; decide
    exact ⟨hsymv ▸ JVal.ne_of_beq_eq_false hbA,
           hsymv ▸ JVal.ne_of_beq_eq_false hbG,
           hsymv ▸ JVal.ne_of_beq_eq_false hbPh,
           hsymv ▸ JVal.ne_of_beq_eq_false hbS,
           hnameGoal⟩

/-- C1 (amended): on the aggregation path no output stock carries one
of the placeholder symbols and none carries the placeholder company
name (the display name may still default to the literal N/A when the
payload has no name). -/
theorem C1_aggregation_path_placeholder_exclusion (record : JVal)
    (st : TaggedStock) (h : st ∈ extractStockData record) :
    st.symbol ≠ .str "AAPL" ∧ st.symbol ≠ .str "GOOGL" ∧
    st.symbol ≠ .str "未提供公司名称" ∧ st.symbol ≠ .str "stock symbol" ∧
    st.name ≠ .str "company name" := by
  unfold extractStockData at h
  by_cases h1 : record.truthy = true
  · rw [if_pos h1] at h
    rcases hd : record.getF "data" with _ | d
    · rw [hd] at h; cases h
    · rw [hd] at h
      by_cases h2 : d.truthy = true
      · simp only [h2, if_true] at h
        rcases List.mem_flatMap.mp h with ⟨e, _, hst⟩
        rcases mem_extractSiteStocks hst with ⟨x, hok, rfl⟩
        exact stockOk_fields hok
      · simp only [h2, if_false] at h
        cases h
  · rw [if_neg h1] at h; cases h

/-- C1 witness: a record with one clean stock demonstrates a nonempty
extraction to which the amended exclusion applies. -/
theorem C1_aggregation_path_placeholder_exclusion_witness :
    extractStockData (JVal.obj [("data", JVal.obj [("s", JVal.obj
        [("ai_processed_data", JVal.obj [("stocks", JVal.arr
          [JVal.obj [("symbol", JVal.str "600000")]])])])])]) =
      [TaggedStock.mk (JVal.str "600000") (JVal.str "N/A") (JVal.str "N/A")
        (JVal.str "N/A") (JVal.str "N/A") (JVal.str "N/A") "s"]
    ∧ ((TaggedStock.mk (JVal.str "600000") (JVal.str "N/A") (JVal.str "N/A")
        (JVal.str "N/A") (JVal.str "N/A") (JVal.str "N/A") "s").symbol ≠
          JVal.str "AAPL" ∧
       (TaggedStock.mk (JVal.str "600000") (JVal.str "N/A") (JVal.str "N/A")
        (JVal.str "N/A") (JVal.str "N/A") (JVal.str "N/A") "s").symbol ≠
          JVal.str "GOOGL" ∧
       (TaggedStock.mk (JVal.str "600000") (JVal.str "N/A") (JVal.str "N/A")
        (JVal.str "N/A") (JVal.str "N/A") (JVal.str "N/A") "s").symbol ≠
          JVal.str "未提供公司名称" ∧
       (TaggedStock.mk (JVal.str "600000") (JVal.str "N/A") (JVal.str "N/A")
        (JVal.str "N/A") (JVal.str "N/A") (JVal.str "N/A") "s").symbol ≠
          JVal.str "stock symbol" ∧
       (TaggedStock.mk (JVal.str "600000") (JVal.str "N/A") (JVal.str "N/A")
        (JVal.str "N/A") (JVal.str "N/A") (JVal.str "N/A") "s").name ≠
          JVal.str "company name") :=
  ⟨rfl,
   C1_aggregation_path_placeholder_exclusion
     (JVal.obj [("data", JVal.obj [("s", JVal.obj
        [("ai_processed_data", JVal.obj [("stocks", JVal.arr
          [JVal.obj [("symbol", JVal.str "600000")]])])])])])
     (TaggedStock.mk (JVal.str "600000") (JVal.str "N/A") (JVal.str "N/A")
        (JVal.str "N/A") (JVal.str "N/A") (JVal.str "N/A") "s")
     (by decide)⟩

end StockMarket

namespace StockMarket

/-! ### Isolation of per-site extraction -/

theorem filter_flatMap {α β : Type} (l : List α) (f : α → List β) (p : β → Bool) :
    (l.flatMap f).filter p = l.flatMap (fun x => (f x).filter p) := by
  induction l with
  | nil => rfl
  | cons x xs ih => simp [List.flatMap_cons, List.filter_append, ih]

/-- C9: changing the payload of one source changes nothing in the
stocks extracted for the other sources: filtering the aggregation
output down to the sites other than s gives identical lists for the
two records, and the aggregation is a total function so the snapshot
aggregation always completes. -/
theorem C9_other_sites_unaffected (pre post : List (String × JVal))
    (s : String) (v v' : JVal) :
    ((extractStockData (.obj [("data", .obj (pre ++ (s, v) :: post))])).filter
        (fun st => st.site != s)) =
      ((extractStockData (.obj [("data", .obj (pre ++ (s, v') :: post))])).filter
        (fun st => st.site != s)) := by
  have hrec : ∀ w : JVal,
      extractStockData (.obj [("data", .obj (pre ++ (s, w) :: post))]) =
        (pre ++ (s, w) :: post).flatMap (fun e => extractSiteStocks e.1 e.2) := by
    intro w
    rfl
  have hchunk : ∀ w : JVal,
      (extractSiteStocks s w).filter (fun st => st.site != s) = [] := by
    intro w
    refine List.filter_eq_nil_iff.mpr ?_
    intro st hst
    simp [extractSiteStocks_site hst]
  rw [hrec v, hrec v', filter_flatMap, filter_flatMap]
  simp only [List.flatMap_append, List.flatMap_cons]
  rw [hchunk v, hchunk v']

/-- C10: the aggregation path (the sole input of the stock count and
chart aggregates) yields nothing for a null record or a record whose
data field is absent or falsy; a site whose ai_processed_data is null
or any string — even one that is valid JSON for a structured payload —
contributes no stocks; and the per-site extraction depends only on the
ai_processed_data field, so the raw-preview fallback and the
followed-links extraction can never influence this path. -/
theorem C10_aggregation_path_scope :
    extractStockData .null = []
    ∧ (∀ r : JVal, (∀ d, r.getF "data" = some d → d.truthy = false) →
        extractStockData r = [])
    ∧ (∀ (site : String) (sd : JVal), sd.getF "ai_processed_data" = some .null →
        extractSiteStocks site sd = [])
    ∧ (∀ (site : String) (sd : JVal) (j : String),
        sd.getF "ai_processed_data" = some (.str j) →
        extractSiteStocks site sd = [])
    ∧ (∀ (site : String) (fs fs' : List (String × JVal)),
        fs.lookup "ai_processed_data" = fs'.lookup "ai_processed_data" →
        extractSiteStocks site (.obj fs) = extractSiteStocks site (.obj fs')) := by
  refine ⟨rfl, ?_, ?_, ?_, ?_⟩
  · intro r hr
    rcases hd : r.getF "data" with _ | d
    · simp [extractStockData, hd]
    · simp [extractStockData, hd, hr d hd]
  · intro site sd h
    rcases sd with _ | _ | _ | _ | _ | fs
    · cases h
    · cases h
    · cases h
    · cases h
    · cases h
    · have h' : List.lookup "ai_processed_data" fs = some JVal.null := h
      simp [extractSiteStocks, JVal.truthy, JVal.isObjType, JVal.getF, h']
  · intro site sd j h
    rcases sd with _ | _ | _ | _ | _ | fs
    · cases h
    · cases h
    · cases h
    · cases h
    · cases h
    · have h' : List.lookup "ai_processed_data" fs = some (JVal.str j) := h
      by_cases hj : j = ""
      · subst hj
        simp [extractSiteStocks, JVal.truthy, JVal.isObjType, JVal.getF, h']
      · simp [extractSiteStocks, JVal.truthy, JVal.isObjType, JVal.getF, h', hj]
  · intro site fs fs' h
    have h' : (JVal.obj fs).getF "ai_processed_data" =
        (JVal.obj fs').getF "ai_processed_data" := h
    unfold extractSiteStocks
    rw [h']
    rfl

/-- C10 witness: concrete records exercising each hypothesis. -/
theorem C10_aggregation_path_scope_witness :
    extractStockData (JVal.obj [("data", JVal.null)]) = []
    ∧ extractSiteStocks "site1" (JVal.obj [("ai_processed_data",
        JVal.str "\x7b\"stocks\":[\x7b\"symbol\":\"600000\"\x7d]\x7d")]) = []
    ∧ extractSiteStocks "site1" (JVal.obj [("ai_processed_data", JVal.null)]) = []
    ∧ extractSiteStocks "site1" (JVal.obj [("ai_processed_data", JVal.arr []),
        ("followed_links_data", JVal.arr [JVal.str "x"])]) =
      extractSiteStocks "site1" (JVal.obj [("ai_processed_data", JVal.arr [])]) :=
  ⟨C10_aggregation_path_scope.2.1 (JVal.obj [("data", JVal.null)]) (by
      intro d hd
      have h2 : some JVal.null = some d :=
        (show (JVal.obj [("data", JVal.null)]).getF "data" = some JVal.null
          from rfl).symm.trans hd
      injection h2 with h3
      rw [← h3]
      rfl),
   C10_aggregation_path_scope.2.2.2.1 "site1" _
     "\x7b\"stocks\":[\x7b\"symbol\":\"600000\"\x7d]\x7d" rfl,
   C10_aggregation_path_scope.2.2.1 "site1" _ rfl,
   C10_aggregation_path_scope.2.2.2.2 "site1"
     [("ai_processed_data", JVal.arr []), ("followed_links_data", JVal.arr [JVal.str "x"])]
     [("ai_processed_data", JVal.arr [])] rfl⟩

end StockMarket

namespace StockMarket

/-! ### Followed-links code search characterization -/

theorem isCodeStart_isDigit {c : Char} (h : isCodeStart c = true) :
    c.isDigit = true := by
  simp only [isCodeStart, Bool.or_eq_true, Bool.and_eq_true,
    decide_eq_true_eq] at h
  simp only [Char.isDigit, Bool.and_eq_true, decide_eq_true_eq]
  rcases h with ⟨ha, hb⟩ | hc
  · rw [Char.le_def] at ha hb
    have na : 48 ≤ c.toNat := ha
    have nb : c.toNat ≤ 51 := hb
    exact ⟨na, (by omega : c.toNat ≤ 57)⟩
  · subst hc
    exact ⟨by decide, by decide⟩

/-- Bridge between the leading-digit form of the code alternation and
the claim's numeric ranges. -/
theorem code_range_iff (code : List Char) (hlen : code.length = 6)
    (hdig : ∀ c ∈ code, c.isDigit = true) :
    (∃ c0, code.head? = some c0 ∧ isCodeStart c0 = true) ↔
      (digitsToNat code < 400000 ∨
        (600000 ≤ digitsToNat code ∧ digitsToNat code < 700000)) := by
  rcases code with _ | ⟨c1, _ | ⟨c2, _ | ⟨c3, _ | ⟨c4, _ | ⟨c5, _ | ⟨c6, _ | ⟨c7, t⟩⟩⟩⟩⟩⟩⟩
  all_goals simp at hlen
  have h1 := hdig c1 (by simp)
  have h2 := hdig c2 (by simp)
  have h3 := hdig c3 (by simp)
  have h4 := hdig c4 (by simp)
  have h5 := hdig c5 (by simp)
  have h6 := hdig c6 (by simp)
  simp only [Char.isDigit, Bool.and_eq_true, decide_eq_true_eq] at h1 h2 h3 h4 h5 h6
  have n1 : 48 ≤ c1.toNat ∧ c1.toNat ≤ 57 := h1
  have n2 : 48 ≤ c2.toNat ∧ c2.toNat ≤ 57 := h2
  have n3 : 48 ≤ c3.toNat ∧ c3.toNat ≤ 57 := h3
  have n4 : 48 ≤ c4.toNat ∧ c4.toNat ≤ 57 := h4
  have n5 : 48 ≤ c5.toNat ∧ c5.toNat ≤ 57 := h5
  have n6 : 48 ≤ c6.toNat ∧ c6.toNat ≤ 57 := h6
  obtain ⟨n1a, n1b⟩ := n1
  obtain ⟨n2a, n2b⟩ := n2
  obtain ⟨n3a, n3b⟩ := n3
  obtain ⟨n4a, n4b⟩ := n4
  obtain ⟨n5a, n5b⟩ := n5
  obtain ⟨n6a, n6b⟩ := n6
  simp only [digitsToNat, List.foldl, List.head?, Option.some.injEq]
  constructor
  · rintro ⟨c0, hc0, hc⟩
    rw [← hc0] at hc
    simp only [isCodeStart, Bool.or_eq_true, Bool.and_eq_true,
      decide_eq_true_eq] at hc
    rcases hc with ⟨ha, hb⟩ | hc
    · rw [Char.le_def] at ha hb
      have na : 48 ≤ c1.toNat := ha
      have nb : c1.toNat ≤ 51 := hb
      left; omega
    · subst hc
      have n54 : Char.toNat '6' = 54 := by decide
      right; omega
  · intro h
    refine ⟨c1, rfl, ?_⟩
    simp only [isCodeStart, Bool.or_eq_true, Bool.and_eq_true,
      decide_eq_true_eq]
    by_cases h54 : c1.toNat = 54
    · right
      exact Char.eq_of_val_eq (UInt32.toNat.inj
        (by rw [show ('6').val.toNat = 54 from rfl]; exact h54))
    · left
      rw [Char.le_def, Char.le_def]
      exact (by omega : 48 ≤ c1.toNat ∧ c1.toNat ≤ 51)

end StockMarket

namespace StockMarket

theorem codeHere_isSome_iff (prev : Option Char) (cs : List Char) :
    (codeHere prev cs).isSome = true ↔
      ((∀ p, prev = some p → isWordCh p = false) ∧
       ∃ code post, cs = code ++ post ∧ code.length = 6 ∧
         (∀ c ∈ code, c.isDigit = true) ∧
         (∃ c0, code.head? = some c0 ∧ isCodeStart c0 = true) ∧
         (∀ c, post.head? = some c → isWordCh c = false)) := by
  unfold codeHere
  by_cases hp : (match prev with | some p => isWordCh p | none => false) = true
  · rw [if_pos hp]
    simp only [Option.isSome_none, Bool.false_eq_true, false_iff]
    rintro ⟨hprev, _⟩
    rcases prev with _ | p
    · cases hp
    · have hp' : isWordCh p = true := hp
      rw [hprev p rfl] at hp'
      cases hp'
  · rw [if_neg hp]
    have hprev : ∀ p, prev = some p → isWordCh p = false := by
      intro p hpp
      subst hpp
      rcases hw : isWordCh p
      · rfl
      · exact absurd (hw : isWordCh p = true) hp
    have hshort : ∀ cs2 : List Char, cs2.length < 6 →
        ¬((∀ p, prev = some p → isWordCh p = false) ∧
          ∃ code post, cs2 = code ++ post ∧ code.length = 6 ∧
            (∀ c ∈ code, c.isDigit = true) ∧
            (∃ c0, code.head? = some c0 ∧ isCodeStart c0 = true) ∧
            (∀ c, post.head? = some c → isWordCh c = false)) := by
      rintro cs2 hlt ⟨_, code, post, hcs, hlen, _⟩
      have hl := congrArg List.length hcs
      simp [hlen] at hl
      omega
    rcases cs with _ | ⟨c1, _ | ⟨c2, _ | ⟨c3, _ | ⟨c4, _ | ⟨c5, _ | ⟨c6, rest⟩⟩⟩⟩⟩⟩
    · exact iff_of_false (fun h => Bool.false_ne_true h) (hshort [] (by simp))
    · exact iff_of_false (fun h => Bool.false_ne_true h) (hshort [c1] (by simp))
    · exact iff_of_false (fun h => Bool.false_ne_true h) (hshort [c1, c2] (by simp))
    · exact iff_of_false (fun h => Bool.false_ne_true h) (hshort [c1, c2, c3] (by simp))
    · exact iff_of_false (fun h => Bool.false_ne_true h)
        (hshort [c1, c2, c3, c4] (by simp))
    · exact iff_of_false (fun h => Bool.false_ne_true h)
        (hshort [c1, c2, c3, c4, c5] (by simp))
    · split
      · rename_i a1 a2 a3 a4 a5 a6 arest heq
        simp only [List.cons.injEq] at heq
        obtain ⟨rfl, rfl, rfl, rfl, rfl, rfl, rfl⟩ := heq
        by_cases hs : (isCodeStart c1 && [c2, c3, c4, c5, c6].all Char.isDigit &&
            (match rest with | r :: _ => !isWordCh r | [] => true)) = true
        · rw [if_pos hs]
          simp only [Option.isSome_some, true_iff]
          have hs2 := hs
          simp only [Bool.and_eq_true] at hs2
          obtain ⟨⟨hstart, hdigs⟩, hafter⟩ := hs2
          rw [List.all_eq_true] at hdigs
          refine ⟨hprev, [c1, c2, c3, c4, c5, c6], rest, by simp, rfl, ?_,
            ⟨c1, rfl, hstart⟩, ?_⟩
          · intro c hc
            simp only [List.mem_cons, List.not_mem_nil, or_false] at hc
            rcases hc with rfl | rfl | rfl | rfl | rfl | rfl
            · exact isCodeStart_isDigit hstart
            · exact hdigs c (by simp)
            · exact hdigs c (by simp)
            · exact hdigs c (by simp)
            · exact hdigs c (by simp)
            · exact hdigs c (by simp)
          · intro c hc
            rcases rest with _ | ⟨r, rs⟩
            · cases hc
            · have hc' : r = c := by simpa using hc
              subst hc'
              have hafter' : (!isWordCh r) = true := hafter
              simpa using hafter'
        · rw [if_neg hs]
          simp only [Option.isSome_none, Bool.false_eq_true, false_iff]
          rintro ⟨_, code, post, hcs, hlen, hdig, ⟨c0, hc0, hstart⟩, hafter⟩
          rcases code with _ | ⟨b1, _ | ⟨b2, _ | ⟨b3, _ | ⟨b4, _ | ⟨b5, _ | ⟨b6, _ | ⟨b7, t⟩⟩⟩⟩⟩⟩⟩
          all_goals simp at hlen
          simp only [List.cons_append, List.nil_append, List.cons.injEq] at hcs
          obtain ⟨rfl, rfl, rfl, rfl, rfl, rfl, rfl⟩ := hcs
          apply hs
          simp only [Bool.and_eq_true]
          have hc0' : c1 = c0 := by simpa using hc0
          refine ⟨⟨hc0' ▸ hstart, ?_⟩, ?_⟩
          · rw [List.all_eq_true]
            intro c hc
            exact hdig c (by simp only [List.mem_cons] at hc ⊢; tauto)
          · rcases rest with _ | ⟨r, rs⟩
            · rfl
            · have := hafter r rfl
              simpa using this
      · rename_i hcontra
        exact (hcontra c1 c2 c3 c4 c5 c6 rest rfl).elim

theorem getLastOr_cons (p0 : Char) (pre : List Char) (prev : Option Char) :
    Option.or ((p0 :: pre).getLast?) prev = Option.or pre.getLast? (some p0) := by
  rcases pre with _ | ⟨q, qs⟩
  · rfl
  · rw [List.getLast?_cons_cons]
    rcases hg : (q :: qs).getLast? with _ | x
    · rw [List.getLast?_eq_none_iff] at hg
      cases hg
    · rfl

theorem findCodeGo_isSome_iff : ∀ (cs : List Char) (prev : Option Char),
    (findCodeGo prev cs).isSome = true ↔
      ∃ pre code post, cs = pre ++ code ++ post ∧ code.length = 6 ∧
        (∀ c ∈ code, c.isDigit = true) ∧
        (∃ c0, code.head? = some c0 ∧ isCodeStart c0 = true) ∧
        (∀ c, Option.or pre.getLast? prev = some c → isWordCh c = false) ∧
        (∀ c, post.head? = some c → isWordCh c = false) := by
  intro cs
  induction cs with
  | nil =>
      intro prev
      simp only [findCodeGo, Option.isSome_none, Bool.false_eq_true, false_iff]
      rintro ⟨pre, code, post, hcs, hlen, _⟩
      have hl := congrArg List.length hcs
      simp [hlen] at hl
      omega
  | cons c rest ih =>
      intro prev
      rcases hch : codeHere prev (c :: rest) with _ | s
      · have hstep : findCodeGo prev (c :: rest) = findCodeGo (some c) rest := by
          simp [findCodeGo, hch]
        rw [hstep, ih (some c)]
        constructor
        · rintro ⟨pre, code, post, hcs, hlen, hdig, hhead, hbound, hafter⟩
          refine ⟨c :: pre, code, post, by simp [hcs], hlen, hdig, hhead, ?_, hafter⟩
          intro c' hc'
          apply hbound
          rwa [getLastOr_cons] at hc'
        · rintro ⟨pre, code, post, hcs, hlen, hdig, hhead, hbound, hafter⟩
          rcases pre with _ | ⟨p0, pre'⟩
          · exfalso
            have hsome : (codeHere prev (c :: rest)).isSome = true := by
              rw [codeHere_isSome_iff]
              refine ⟨?_, code, post, by simpa using hcs, hlen, hdig, hhead, hafter⟩
              intro p hpp
              apply hbound
              simp [hpp]
            rw [hch] at hsome
            cases hsome
          · simp only [List.cons_append, List.cons.injEq] at hcs
            obtain ⟨rfl, hrest⟩ := hcs
            refine ⟨pre', code, post, hrest, hlen, hdig, hhead, ?_, hafter⟩
            intro c' hc'
            apply hbound
            rw [getLastOr_cons]
            exact hc'
      · have hsome : (codeHere prev (c :: rest)).isSome = true := by simp [hch]
        rw [codeHere_isSome_iff] at hsome
        obtain ⟨hprev, code, post, hcs, hlen, hdig, hhead, hafter⟩ := hsome
        have hlhs : (findCodeGo prev (c :: rest)).isSome = true := by
          simp [findCodeGo, hch]
        simp only [hlhs, true_iff]
        refine ⟨[], code, post, by simpa using hcs, hlen, hdig, hhead, ?_, hafter⟩
        intro c' hc'
        exact hprev c' (by simpa using hc')

theorem findCode_isSome_iff (cs : List Char) :
    (findCode cs).isSome = true ↔
      ∃ pre code post, cs = pre ++ code ++ post ∧ code.length = 6 ∧
        (∀ c ∈ code, c.isDigit = true) ∧
        (∃ c0, code.head? = some c0 ∧ isCodeStart c0 = true) ∧
        (∀ c, pre.getLast? = some c → isWordCh c = false) ∧
        (∀ c, post.head? = some c → isWordCh c = false) := by
  rw [show findCode cs = findCodeGo none cs from rfl, findCodeGo_isSome_iff]
  constructor
  all_goals
    rintro ⟨pre, code, post, h1, h2, h3, h4, h5, h6⟩
    ; refine ⟨pre, code, post, h1, h2, h3, h4, ?_, h6⟩
    ; intro c hc
    ; apply h5
    ; simpa [Option.or_none] using hc

end StockMarket

namespace StockMarket

/-- A row yields a candidate exactly when it has at least two cells
and its space-joined text holds a word-bounded six-digit code in one
of the two exchange ranges. -/
theorem rowStock_isSome_iff (row : List String) :
    (rowStock row).isSome = true ↔
      (2 ≤ row.length ∧ ∃ pre code post,
        (String.intercalate " " row).toList = pre ++ code ++ post ∧
        code.length = 6 ∧ (∀ c ∈ code, c.isDigit = true) ∧
        (digitsToNat code < 400000 ∨
          (600000 ≤ digitsToNat code ∧ digitsToNat code < 700000)) ∧
        (∀ c, pre.getLast? = some c → isWordCh c = false) ∧
        (∀ c, post.head? = some c → isWordCh c = false)) := by
  unfold rowStock
  by_cases hl : 2 ≤ row.length
  · rw [if_pos hl]
    rcases hf : findCode (String.intercalate " " row).toList with _ | code
    · simp only [Option.isSome_none, Bool.false_eq_true, false_iff]
      rintro ⟨_, pre, code, post, hdecomp, hlen, hdig, hrange, hb, ha⟩
      have hsome : (findCode (String.intercalate " " row).toList).isSome = true :=
        (findCode_isSome_iff _).mpr
          ⟨pre, code, post, hdecomp, hlen, hdig,
            (code_range_iff code hlen hdig).mpr hrange, hb, ha⟩
      rw [hf] at hsome
      cases hsome
    · simp only [Option.isSome_some, true_iff]
      have hsome : (findCode (String.intercalate " " row).toList).isSome = true := by
        rw [hf]
        rfl
      obtain ⟨pre, code2, post, hdecomp, hlen, hdig, hhead, hb, ha⟩ :=
        (findCode_isSome_iff _).mp hsome
      exact ⟨hl, pre, code2, post, hdecomp, hlen, hdig,
        (code_range_iff _ hlen hdig).mp hhead, hb, ha⟩
  · rw [if_neg hl]
    simp only [Option.isSome_none, Bool.false_eq_true, false_iff]
    rintro ⟨h2, _⟩
    exact hl h2

theorem rowStock_le_one (row : List String) : (rowStock row).toList.length ≤ 1 := by
  rcases rowStock row <;> simp

theorem enumFrom_filterMap_rows : ∀ (rest : List (List String)) (n : Nat),
    (List.enumFrom (n + 1) rest).filterMap
      (fun p => if p.1 = 0 then none else rowStock p.2) = rest.filterMap rowStock := by
  intro rest
  induction rest with
  | nil => intro n; rfl
  | cons r rs ih =>
      intro n
      simp only [List.enumFrom, List.filterMap_cons, if_neg (Nat.succ_ne_zero n)]
      rcases hr : rowStock r with _ | t
      · exact ih (n + 1)
      · rw [ih (n + 1)]

/-- The header row (index 0) is skipped; the other rows contribute
independently of their index. -/
theorem tableStocks_cons (r0 : List String) (rest : List (List String)) :
    tableStocks (r0 :: rest) = rest.filterMap rowStock := by
  simp only [tableStocks, List.enum_cons, List.filterMap_cons, if_pos rfl]
  exact enumFrom_filterMap_rows rest 0

/-- C7: in every followed-links table the header row contributes
nothing (the extraction is the per-row filterMap over the remaining
rows); a row yields at most one candidate, and yields one exactly when
it has at least two cells and its space-joined text holds a
word-bounded six-digit code in the ranges 000000 to 399999 or 600000
to 699999 (rows without such a code are skipped silently); and the
two-row example table yields exactly the one stock of its data row. -/
theorem C7_table_extraction (r0 : List String) (rest : List (List String))
    (row : List String) :
    tableStocks (r0 :: rest) = rest.filterMap rowStock
    ∧ (rowStock row).toList.length ≤ 1
    ∧ ((rowStock row).isSome = true ↔
        (2 ≤ row.length ∧ ∃ pre code post,
          (String.intercalate " " row).toList = pre ++ code ++ post ∧
          code.length = 6 ∧ (∀ c ∈ code, c.isDigit = true) ∧
          (digitsToNat code < 400000 ∨
            (600000 ≤ digitsToNat code ∧ digitsToNat code < 700000)) ∧
          (∀ c, pre.getLast? = some c → isWordCh c = false) ∧
          (∀ c, post.head? = some c → isWordCh c = false)))
    ∧ tableStocks [["代码", "名称", "价格"], ["600000", "浦发银行", "10.50"]] =
        [TStock.mk "600000" "浦发银行" "10.50" "600000" "N/A" "600000"] :=
  ⟨tableStocks_cons r0 rest, rowStock_le_one row, rowStock_isSome_iff row, by decide⟩

end StockMarket
